import Mathlib

/-!
Verification development for an interactive time-series line chart
(Angular + d3).  Two component variants exist in the source: a responsive
one (`app.component.ts`, class `LineChartComponent` with signal-driven
`width`/`heightHost`) and a fixed-size one (width 928, height 500).

Pixel coordinates and time values (milliseconds since epoch) are modelled
as rationals; all d3 scale arithmetic used by the component is exact
linear arithmetic, so ℚ is a faithful carrier for the relations proved
here.
-/

namespace LineChart

/-- One record of the dataset: `{date, value}`.  Dates are compared as
numbers (`new Date(d.date)` coerced with `Number`), so we carry the
numeric timestamp directly. -/
structure DataPoint where
  date : ℚ
  value : ℚ
deriving DecidableEq, Repr, Inhabited

/-- Layout margins of both component variants:
`{ top: 8, right: 8, bottom: 32, left: 32 }`. -/
def marginTop : ℚ := 8

def marginRight : ℚ := 8

def marginBottom : ℚ := 32

def marginLeft : ℚ := 32

/-- The overview strip height `dzHeight = 40`. -/
def dzHeight : ℚ := 40

/-- A d3 linear/UTC scale: domain `[d0, d1]`, range `[r0, r1]`. -/
structure TimeScale where
  d0 : ℚ
  d1 : ℚ
  r0 : ℚ
  r1 : ℚ
deriving DecidableEq, Repr

/-- Forward application of a d3 continuous scale:
`r0 + (t - d0) / (d1 - d0) * (r1 - r0)`. -/
def TimeScale.applyS (s : TimeScale) (t : ℚ) : ℚ :=
  s.r0 + (t - s.d0) / (s.d1 - s.d0) * (s.r1 - s.r0)

/-- `scale.invert`: `d0 + (p - r0) / (r1 - r0) * (d1 - d0)`. -/
def TimeScale.invert (s : TimeScale) (p : ℚ) : ℚ :=
  s.d0 + (p - s.r0) / (s.r1 - s.r0) * (s.d1 - s.d0)

/-- A d3 zoom transform: scale factor `k` and x-translation `x`
(the component never uses the y component). -/
structure ZoomTransform where
  k : ℚ
  x : ℚ
deriving DecidableEq, Repr

/-- `d3.zoomIdentity`. -/
def zoomIdentity : ZoomTransform := ⟨1, 0⟩

/-- `transform.invertX(p) = (p - x) / k`. -/
def ZoomTransform.invertX (t : ZoomTransform) (p : ℚ) : ℚ :=
  (p - t.x) / t.k

/-- `d3.zoomIdentity.translate(tx, 0).scale(k)` evaluates to the transform
with scale `k` and x-translation `tx` (d3: `translate` then `scale`
multiplies the scale and keeps the translation). -/
def translateScale (tx k : ℚ) : ZoomTransform := ⟨k, tx⟩

/-- `transform.rescaleX(base)`: copy of `base` whose domain is
`base.range().map(t.invertX).map(base.invert)`; the range is kept. -/
def ZoomTransform.rescaleX (t : ZoomTransform) (s : TimeScale) : TimeScale :=
  { d0 := s.invert (t.invertX s.r0)
    d1 := s.invert (t.invertX s.r1)
    r0 := s.r0
    r1 := s.r1 }

/-- `d3.extent(list, accessor)` for a non-empty list: fold keeping the
running minimum and maximum of the accessed values. -/
def extentFold (f : DataPoint → ℚ) (l : List DataPoint) (acc : ℚ × ℚ) : ℚ × ℚ :=
  l.foldl (fun p d => (min p.1 (f d), max p.2 (f d))) acc

/-- `d3.extent(list, accessor)`: `none` on the empty list (d3 returns
`[undefined, undefined]`), otherwise the (min, max) pair of the accessed
values. -/
def extent (f : DataPoint → ℚ) : List DataPoint → Option (ℚ × ℚ)
  | [] => none
  | d :: ds => some (extentFold f ds (f d, f d))

/-- Reactive state of the responsive `LineChartComponent`: the `width` /
`heightHost` signals, the canvas pixel dimensions, the zoom transform
signal and the brush-selection signals `bx0`, `bx1`. -/
structure ChartState where
  data : List DataPoint
  width : ℚ
  heightHost : ℚ
  chartCanvasWidth : ℚ
  chartCanvasHeight : ℚ
  dzCanvasWidth : ℚ
  dzCanvasHeight : ℚ
  transform : ZoomTransform
  bx0 : ℚ
  bx1 : ℚ
deriving DecidableEq, Repr

/-- `chartHeight = computed(() => Math.max(0, heightHost - dzHeight - 16 - 8))`. -/
def ChartState.chartHeight (st : ChartState) : ℚ :=
  max 0 (st.heightHost - dzHeight - 16 - 8)

/-- `baseXScale`: UTC scale with domain `d3.extent(data, d => new Date(d.date))`
and range `[margin.left, width - margin.right]`.  On an empty dataset the
extent is undefined; the model defaults it to `(0, 0)` (theorems that need
the scale assume a non-degenerate extent). -/
def ChartState.baseXScale (st : ChartState) : TimeScale :=
  let e := (extent DataPoint.date st.data).getD (0, 0)
  ⟨e.1, e.2, marginLeft, st.width - marginRight⟩

/-- `xScale = computed(() => zoomTransform().rescaleX(baseXScale()))`. -/
def ChartState.xScale (st : ChartState) : TimeScale :=
  st.transform.rescaleX st.baseXScale

/-- `setBrush(x0, x1)`: set the brush signals, and unless the span is zero
derive and publish the implied zoom transform
`k = full / span`, `tx = margin.left - min(x0,x1) * k`. -/
def setBrush (st : ChartState) (x0 x1 : ℚ) : ChartState :=
  let st1 := { st with bx0 := x0, bx1 := x1 }
  let span := |x1 - x0|
  if span = 0 then st1
  else
    let full := st.width - marginLeft - marginRight
    let k := full / span
    let tx := marginLeft - min x0 x1 * k
    { st1 with transform := translateScale tx k }

/-- `syncZoomWithBrush()`: read the zoomed domain `[d0, d1]` and set the
brush signals to `baseXScale(d0)`, `baseXScale(d1)`. -/
def syncZoomWithBrush (st : ChartState) : ChartState :=
  { st with
    bx0 := st.baseXScale.applyS st.xScale.d0
    bx1 := st.baseXScale.applyS st.xScale.d1 }

/-- The synchronous part of the `ResizeObserver` callback of
`observeHostResize`: apply the new width/height to the signals and push
the new pixel dimensions to both canvases (`chart.width = width`,
`chart.height = chartHeight()`, `dz.width = width`,
`dz.height = dzHeight`). -/
def resizedState (st : ChartState) (newW newH : ℚ) : ChartState :=
  let st1 := { st with width := newW, heightHost := newH }
  { st1 with
    chartCanvasWidth := newW
    chartCanvasHeight := st1.chartHeight
    dzCanvasWidth := newW
    dzCanvasHeight := dzHeight }

/-- The full `ResizeObserver` callback together with its deferred
(`queueMicrotask`) step: capture the visible domain `[prevD0, prevD1]`
before resizing, resize, then re-derive the brush pixel bounds from the
preserved domain against the new base scale and push them through
`setBrush`. -/
def observeHostResize (st : ChartState) (newW newH : ℚ) : ChartState :=
  let prevD0 := st.xScale.d0
  let prevD1 := st.xScale.d1
  let st2 := resizedState st newW newH
  let nx0 := st2.baseXScale.applyS prevD0
  let nx1 := st2.baseXScale.applyS prevD1
  setBrush st2 nx0 nx1

/-- d3-zoom's application of the configured `scaleExtent([1, 30])` to a
candidate gesture scale factor: `k = Math.max(1, Math.min(30, k))`
(gesture handlers clamp; `zoom.transform` does not). -/
def gestureClampK (k : ℚ) : ℚ := max 1 (min 30 k)

/-- The three drag modes of `initBrush`: move the whole selection, drag
the left handle, drag the right handle. -/
inductive Mode where
  | move : Mode
  | l : Mode
  | r : Mode
deriving DecidableEq, Repr

/-- The closure state of an active brush drag: current mode, the grab
offset, and the selection width captured at drag start (used only by
`move`). -/
structure DragState where
  mode : Mode
  grab : ℚ
  dragWidth : ℚ
deriving DecidableEq, Repr

/-- `Math.max(min, Math.min(v, max))` as used by the handle branches of
`onMove`. -/
def brushClamp (lo hi v : ℚ) : ℚ := max lo (min v hi)

/-- The `onMove` pointer-move handler of `initBrush`: update the edges
according to the drag mode, clamp, swap edges and role on edge-crossing,
and publish through `setBrush`.  Returns the updated component state and
the updated drag-closure state. -/
def onMove (st : ChartState) (ds : DragState) (cx : ℚ) : ChartState × DragState :=
  let lo := marginLeft
  let hi := st.width - marginRight
  let e : ℚ × ℚ :=
    match ds.mode with
    | Mode.move =>
      let x0 := cx - ds.grab
      let x1 := x0 + ds.dragWidth
      let e1 : ℚ × ℚ := if x0 < lo then (lo, x1 + (lo - x0)) else (x0, x1)
      if e1.2 > hi then (e1.1 - (e1.2 - hi), hi) else e1
    | Mode.l => (brushClamp lo hi (cx - ds.grab), st.bx1)
    | Mode.r => (st.bx0, brushClamp lo hi (cx - ds.grab))
  if e.1 > e.2 then
    let mode' := match ds.mode with
      | Mode.l => Mode.r
      | Mode.r => Mode.l
      | Mode.move => Mode.move
    (setBrush st e.2 e.1, { ds with mode := mode', grab := -ds.grab })
  else
    (setBrush st e.1 e.2, ds)

/-- JavaScript `Math.round`: round half toward positive infinity,
`⌊x + 1/2⌋`. -/
def jsRound (q : ℚ) : ℤ := ⌊q + 1 / 2⌋

/-- `yTicksValues` of the responsive variant, as a function of the
`chartHeight()` value and the visible value domain `[minY, maxY]`:
`tickCount = min(max(2, round((chartHeight - top - bottom) / 40)), 5)`,
then `tickCount` evenly spaced values starting at `minY` with step
`(maxY - minY) / (tickCount - 1)`. -/
def yTicksValues (chartH minY maxY : ℚ) : List ℚ :=
  let fullTickCount : ℤ := max 2 (jsRound ((chartH - marginTop - marginBottom) / 40))
  let tickCount : ℤ := min fullTickCount 5
  let step := (maxY - minY) / ((tickCount : ℚ) - 1)
  (List.range tickCount.toNat).map (fun i : ℕ => minY + (i : ℚ) * step)

/-- The binary-search loop of `d3.bisector(d => new Date(d.date)).left`:
while `lo < hi`, take `mid = (lo + hi) >>> 1`; if `date(a[mid]) < x` set
`lo = mid + 1`, else `hi = mid`; return `lo`. -/
def bisectDateLeft (a : List DataPoint) (x : ℚ) (lo hi : ℕ) : ℕ :=
  if h : lo < hi then
    if (a.getD ((lo + hi) / 2) default).date < x then
      bisectDateLeft a x ((lo + hi) / 2 + 1) hi
    else
      bisectDateLeft a x lo ((lo + hi) / 2)
  else lo
termination_by hi - lo
decreasing_by
  all_goals omega

/-- The documented precondition of the component: the dataset is sorted
ascending by date. -/
def DatesSorted (l : List DataPoint) : Prop :=
  l.Pairwise fun p q => p.date ≤ q.date

/-- The core of the `visibleData` computed signal, as a function of the
dataset and the zoomed domain endpoints `[x0, x1]`:
`i0 = bisectDate(data, x0)`, `i1 = bisectDate(data, x1, i0)`, and the
slice `data.slice(i0, i1)`. -/
def visibleDataCore (data : List DataPoint) (x0 x1 : ℚ) : List DataPoint :=
  let i0 := bisectDateLeft data x0 0 data.length
  let i1 := bisectDateLeft data x1 i0 data.length
  (data.drop i0).take (i1 - i0)

/-- `visibleData` of the responsive component: the bisected slice at the
current zoomed domain. -/
def ChartState.visibleData (st : ChartState) : List DataPoint :=
  visibleDataCore st.data st.xScale.d0 st.xScale.d1

/-- The `visibleExtentY` computed signal as a function of the visible
slice: `[0, 1]` when the d3 extent is undefined (empty slice),
`[min - 1, max + 1]` when `min == max`, else `[min, max]`. -/
def visibleExtentY (slice : List DataPoint) : ℚ × ℚ :=
  match extent DataPoint.value slice with
  | none => (0, 1)
  | some e => if e.1 = e.2 then (e.1 - 1, e.2 + 1) else e

/-- `visibleExtentY` of the responsive component. -/
def ChartState.visibleExtentY (st : ChartState) : ℚ × ℚ :=
  LineChart.visibleExtentY st.visibleData

/-- `yTicksValues` of the responsive component. -/
def ChartState.yTicksValues (st : ChartState) : List ℚ :=
  LineChart.yTicksValues st.chartHeight st.visibleExtentY.1 st.visibleExtentY.2

end LineChart

namespace LineChartFixed

/-! The fixed-size variant of the component: `width = 928`,
`height = 500`, the same margins, no brush/resize machinery.  Its
derivation pipeline (`baseXScale` → `xScale` → `visibleData` →
`visibleExtentY` → `yTicksValues`) is transcribed here with the constants
baked in, for comparison with the responsive variant. -/

open LineChart (DataPoint TimeScale ZoomTransform extent bisectDateLeft jsRound)

/-- `width = 928` of the fixed variant. -/
def width : ℚ := 928

/-- `height = 500` of the fixed variant. -/
def height : ℚ := 500

/-- `baseXScale` of the fixed variant: domain from the data's date extent,
range `[32, 928 - 8]`. -/
def baseXScale (data : List DataPoint) : TimeScale :=
  let e := (extent DataPoint.date data).getD (0, 0)
  ⟨e.1, e.2, 32, width - 8⟩

/-- `xScale` of the fixed variant. -/
def xScale (data : List DataPoint) (t : ZoomTransform) : TimeScale :=
  t.rescaleX (baseXScale data)

/-- `visibleData` of the fixed variant: same bisection as the responsive
one, over the fixed variant's zoomed domain. -/
def visibleData (data : List DataPoint) (t : ZoomTransform) : List DataPoint :=
  let x0 := (xScale data t).d0
  let x1 := (xScale data t).d1
  let i0 := bisectDateLeft data x0 0 data.length
  let i1 := bisectDateLeft data x1 i0 data.length
  (data.drop i0).take (i1 - i0)

/-- `visibleExtentY` of the fixed variant. -/
def visibleExtentY (data : List DataPoint) (t : ZoomTransform) : ℚ × ℚ :=
  match extent DataPoint.value (visibleData data t) with
  | none => (0, 1)
  | some e => if e.1 = e.2 then (e.1 - 1, e.2 + 1) else e

/-- `yTicksValues` of the fixed variant:
`fullTickCount = max(2, round((height - 8 - 32) / 40))`. -/
def yTicksValues (data : List DataPoint) (t : ZoomTransform) : List ℚ :=
  let minY := (visibleExtentY data t).1
  let maxY := (visibleExtentY data t).2
  let fullTickCount : ℤ := max 2 (jsRound ((height - 8 - 32) / 40))
  let tickCount : ℤ := min fullTickCount 5
  let step := (maxY - minY) / ((tickCount : ℚ) - 1)
  (List.range tickCount.toNat).map (fun i : ℕ => minY + (i : ℚ) * step)

end LineChartFixed

namespace LineChart

/-! ### Helper lemmas on scales and `setBrush` -/

theorem TimeScale.applyS_invert (s : TimeScale) (p : ℚ)
    (hd : s.d1 - s.d0 ≠ 0) (hr : s.r1 - s.r0 ≠ 0) :
    s.applyS (s.invert p) = p := by
  unfold TimeScale.applyS TimeScale.invert
  field_simp
  ring

theorem TimeScale.invert_applyS (s : TimeScale) (t : ℚ)
    (hd : s.d1 - s.d0 ≠ 0) (hr : s.r1 - s.r0 ≠ 0) :
    s.invert (s.applyS t) = t := by
  unfold TimeScale.applyS TimeScale.invert
  field_simp
  ring

theorem setBrush_of_ne (st : ChartState) (x0 x1 : ℚ) (h : x1 - x0 ≠ 0) :
    setBrush st x0 x1 =
      { st with
        bx0 := x0
        bx1 := x1
        transform :=
          ⟨(st.width - marginLeft - marginRight) / |x1 - x0|,
           marginLeft - min x0 x1 * ((st.width - marginLeft - marginRight) / |x1 - x0|)⟩ } := by
  unfold setBrush translateScale
  rw [if_neg (abs_ne_zero.mpr h)]

theorem setBrush_bx (st : ChartState) (x0 x1 : ℚ) :
    (setBrush st x0 x1).bx0 = x0 ∧ (setBrush st x0 x1).bx1 = x1 := by
  simp only [setBrush]
  split <;> simp

theorem setBrush_bx0 (st : ChartState) (x0 x1 : ℚ) : (setBrush st x0 x1).bx0 = x0 := by
  simp only [setBrush]
  split <;> rfl

theorem setBrush_bx1 (st : ChartState) (x0 x1 : ℚ) : (setBrush st x0 x1).bx1 = x1 := by
  simp only [setBrush]
  split <;> rfl

theorem setBrush_baseXScale (st : ChartState) (x0 x1 : ℚ) :
    (setBrush st x0 x1).baseXScale = st.baseXScale := by
  simp only [setBrush]
  split <;> rfl

/-- The zoomed domain produced by a non-degenerate `setBrush`: the
selection's pixel edges pulled back through the base scale. -/
theorem setBrush_xScale (st : ChartState) (x0 x1 : ℚ) (hne : x0 ≠ x1)
    (hfull : 0 < st.width - marginLeft - marginRight) :
    (setBrush st x0 x1).xScale.d0 = st.baseXScale.invert (min x0 x1) ∧
    (setBrush st x0 x1).xScale.d1 = st.baseXScale.invert (max x0 x1) := by
  have hsub : x1 - x0 ≠ 0 := sub_ne_zero.mpr (Ne.symm hne)
  have hspan : (|x1 - x0| : ℚ) ≠ 0 := ne_of_gt (abs_pos.mpr hsub)
  have hfne : st.width - marginLeft - marginRight ≠ 0 := ne_of_gt hfull
  have hr0 : st.baseXScale.r0 = marginLeft := rfl
  have hr1 : st.baseXScale.r1 = st.width - marginRight := rfl
  rw [ChartState.xScale, setBrush_baseXScale, setBrush_of_ne st x0 x1 hsub]
  simp only [ZoomTransform.rescaleX, ZoomTransform.invertX]
  constructor
  · congr 1
    rw [hr0]
    field_simp
  · congr 1
    have hmm : min x0 x1 + |x1 - x0| = max x0 x1 := by
      rcases le_total x0 x1 with h | h
      · rw [min_eq_left h, max_eq_right h, abs_of_nonneg (by linarith)]
        ring
      · rw [min_eq_right h, max_eq_left h, abs_of_nonpos (by linarith)]
        ring
    rw [hr1, ← hmm]
    field_simp
    ring

/-- C1: Round-trip through the sync bridge.  For a brush selection
`(x0, x1)` with `x0 ≠ x1` inside the overview plot bounds, `setBrush`
produces the transform `k = plotWidth / |x1 - x0|`,
`tx = marginLeft - min(x0,x1) * k`, and `syncZoomWithBrush` maps the
rescaled domain endpoints back through the base scale to exactly
`(min(x0,x1), max(x0,x1))` (hence certainly to within one pixel). -/
theorem brush_zoom_roundtrip (st : ChartState) (x0 x1 : ℚ) (hne : x0 ≠ x1)
    (h0l : marginLeft ≤ x0) (h0r : x0 ≤ st.width - marginRight)
    (h1l : marginLeft ≤ x1) (h1r : x1 ≤ st.width - marginRight)
    (hdom : st.baseXScale.d0 < st.baseXScale.d1) :
    (setBrush st x0 x1).transform.k
        = (st.width - marginLeft - marginRight) / |x1 - x0| ∧
    (setBrush st x0 x1).transform.x
        = marginLeft - min x0 x1 * ((st.width - marginLeft - marginRight) / |x1 - x0|) ∧
    (syncZoomWithBrush (setBrush st x0 x1)).bx0 = min x0 x1 ∧
    (syncZoomWithBrush (setBrush st x0 x1)).bx1 = max x0 x1 := by
  have hsub : x1 - x0 ≠ 0 := sub_ne_zero.mpr (Ne.symm hne)
  have hspan : 0 < |x1 - x0| := abs_pos.mpr hsub
  have hspanle : |x1 - x0| ≤ st.width - marginLeft - marginRight := by
    rw [abs_sub_le_iff]
    constructor <;> linarith
  have hfull : 0 < st.width - marginLeft - marginRight := lt_of_lt_of_le hspan hspanle
  have hdne : st.baseXScale.d1 - st.baseXScale.d0 ≠ 0 := by
    intro h
    exact absurd (by linarith : st.baseXScale.d0 = st.baseXScale.d1) (ne_of_lt hdom)
  have hrne : st.baseXScale.r1 - st.baseXScale.r0 ≠ 0 := by
    show st.width - marginRight - marginLeft ≠ 0
    intro h
    exact absurd hfull (by rw [show st.width - marginLeft - marginRight
      = st.width - marginRight - marginLeft by ring, h]; exact lt_irrefl 0)
  obtain ⟨hx0, hx1⟩ := setBrush_xScale st x0 x1 hne hfull
  refine ⟨?_, ?_, ?_, ?_⟩
  · rw [setBrush_of_ne st x0 x1 hsub]
  · rw [setBrush_of_ne st x0 x1 hsub]
  · rw [syncZoomWithBrush]
    show (setBrush st x0 x1).baseXScale.applyS (setBrush st x0 x1).xScale.d0 = _
    rw [hx0, setBrush_baseXScale]
    exact TimeScale.applyS_invert _ _ hdne hrne
  · rw [syncZoomWithBrush]
    show (setBrush st x0 x1).baseXScale.applyS (setBrush st x0 x1).xScale.d1 = _
    rw [hx1, setBrush_baseXScale]
    exact TimeScale.applyS_invert _ _ hdne hrne

/-- Witness for `brush_zoom_roundtrip` at a concrete state and the
selection `(200, 100)`. -/
theorem brush_zoom_roundtrip_witness :
    (syncZoomWithBrush (setBrush
      ⟨[⟨0, 10⟩, ⟨100, 20⟩], 928, 564, 928, 500, 928, 40, zoomIdentity, 32, 920⟩
      200 100)).bx0 = min 200 100 ∧
    (syncZoomWithBrush (setBrush
      ⟨[⟨0, 10⟩, ⟨100, 20⟩], 928, 564, 928, 500, 928, 40, zoomIdentity, 32, 920⟩
      200 100)).bx1 = max 200 100 := by
  have h := brush_zoom_roundtrip
    ⟨[⟨0, 10⟩, ⟨100, 20⟩], 928, 564, 928, 500, 928, 40, zoomIdentity, 32, 920⟩
    200 100 (by norm_num)
    (by norm_num [marginLeft]) (by norm_num [marginRight])
    (by norm_num [marginLeft]) (by norm_num [marginRight])
    (by norm_num [ChartState.baseXScale, extent, extentFold])
  exact ⟨h.2.2.1, h.2.2.2⟩

/-- C9: Zero-width selection guard.  `setBrush(x0, x1)` with `x0 = x1`
updates the brush signals but returns before computing the transform, so
the published zoom transform is unchanged. -/
theorem setBrush_zero_span_guard (st : ChartState) (x0 x1 : ℚ) (h : x0 = x1) :
    setBrush st x0 x1 = { st with bx0 := x0, bx1 := x1 } ∧
    (setBrush st x0 x1).transform = st.transform := by
  subst h
  simp [setBrush]

/-- Witness for `setBrush_zero_span_guard` at a concrete state and
`x0 = x1 = 100`. -/
theorem setBrush_zero_span_guard_witness :
    (setBrush ⟨[⟨0, 10⟩, ⟨100, 20⟩], 928, 564, 928, 500, 928, 40, zoomIdentity, 32, 920⟩
        100 100).transform = zoomIdentity :=
  (setBrush_zero_span_guard
    ⟨[⟨0, 10⟩, ⟨100, 20⟩], 928, 564, 928, 500, 928, 40, zoomIdentity, 32, 920⟩
    100 100 rfl).2

/-- C2 counterexample: the claim that `k` stays within `[1, 30]` after
every brush-driven update is false.  At width 928 the overview plot is 888
pixels wide; the reachable in-bounds selection `(32, 42)` has span 10, and
`setBrush` publishes `k = 888 / 10 = 88.8 > 30` (neither `setBrush` nor
d3's `zoom.transform` applies the `scaleExtent` clamp). -/
theorem setBrush_k_exceeds_scale_extent :
    ¬ ((setBrush ⟨[⟨0, 10⟩, ⟨100, 20⟩], 928, 564, 928, 500, 928, 40, zoomIdentity, 32, 920⟩
        32 42).transform.k ≤ 30) := by
  rw [setBrush_of_ne _ _ _ (by norm_num)]
  norm_num [marginLeft, marginRight]

/-- C2 amended: gesture-driven updates clamp the candidate scale factor
into `[1, 30]` (d3's `scaleExtent([1, 30])` configured by `initZoom`),
while a brush-driven `setBrush` with a non-degenerate in-bounds selection
guarantees only the lower bound `k ≥ 1` (the selection span is at most the
plot width); its `k = plotWidth / span` may exceed 30. -/
theorem zoom_scale_bounds (st : ChartState) (x0 x1 kc : ℚ) (hne : x0 ≠ x1)
    (h0l : marginLeft ≤ x0) (h0r : x0 ≤ st.width - marginRight)
    (h1l : marginLeft ≤ x1) (h1r : x1 ≤ st.width - marginRight) :
    (1 ≤ gestureClampK kc ∧ gestureClampK kc ≤ 30) ∧
    1 ≤ (setBrush st x0 x1).transform.k := by
  have hsub : x1 - x0 ≠ 0 := sub_ne_zero.mpr (Ne.symm hne)
  have hspan : 0 < |x1 - x0| := abs_pos.mpr hsub
  have hspanle : |x1 - x0| ≤ st.width - marginLeft - marginRight := by
    rw [abs_sub_le_iff]
    constructor <;> linarith
  refine ⟨⟨le_max_left 1 _, max_le (by norm_num) (min_le_left 30 kc)⟩, ?_⟩
  rw [setBrush_of_ne st x0 x1 hsub]
  exact (one_le_div hspan).mpr hspanle

/-- Witness for `zoom_scale_bounds` at a concrete state, selection
`(100, 200)` and candidate gesture scale `64`. -/
theorem zoom_scale_bounds_witness :
    gestureClampK 64 ≤ 30 ∧
    1 ≤ (setBrush ⟨[⟨0, 10⟩, ⟨100, 20⟩], 928, 564, 928, 500, 928, 40, zoomIdentity, 32, 920⟩
        100 200).transform.k := by
  have h := zoom_scale_bounds
    ⟨[⟨0, 10⟩, ⟨100, 20⟩], 928, 564, 928, 500, 928, 40, zoomIdentity, 32, 920⟩
    100 200 64 (by norm_num)
    (by norm_num [marginLeft]) (by norm_num [marginRight])
    (by norm_num [marginLeft]) (by norm_num [marginRight])
  exact ⟨h.1.2, h.2⟩

theorem setBrush_canvas (st : ChartState) (x0 x1 : ℚ) :
    (setBrush st x0 x1).chartCanvasWidth = st.chartCanvasWidth ∧
    (setBrush st x0 x1).chartCanvasHeight = st.chartCanvasHeight ∧
    (setBrush st x0 x1).dzCanvasWidth = st.dzCanvasWidth ∧
    (setBrush st x0 x1).dzCanvasHeight = st.dzCanvasHeight := by
  simp only [setBrush]
  split <;> exact ⟨rfl, rfl, rfl, rfl⟩

theorem TimeScale.applyS_lt (s : TimeScale) (t u : ℚ)
    (hd : s.d0 < s.d1) (hr : s.r0 < s.r1) (h : t < u) :
    s.applyS t < s.applyS u := by
  have hd' : (0 : ℚ) < s.d1 - s.d0 := by linarith
  have hr' : (0 : ℚ) < s.r1 - s.r0 := by linarith
  unfold TimeScale.applyS
  have h1 : (t - s.d0) / (s.d1 - s.d0) < (u - s.d0) / (s.d1 - s.d0) :=
    (div_lt_div_iff_of_pos_right hd').mpr (by linarith)
  have h2 := mul_lt_mul_of_pos_right h1 hr'
  linarith

/-- Setting the brush to the base-scale images of a non-degenerate time
pair recovers that pair as the zoomed domain. -/
theorem setBrush_applyS_roundtrip (st : ChartState) (t0 t1 : ℚ)
    (hdom : st.baseXScale.d0 < st.baseXScale.d1)
    (hfull : 0 < st.width - marginLeft - marginRight)
    (ht : t0 < t1) :
    (setBrush st (st.baseXScale.applyS t0) (st.baseXScale.applyS t1)).xScale.d0 = t0 ∧
    (setBrush st (st.baseXScale.applyS t0) (st.baseXScale.applyS t1)).xScale.d1 = t1 := by
  have hr : st.baseXScale.r0 < st.baseXScale.r1 := by
    show marginLeft < st.width - marginRight
    linarith
  have hnx : st.baseXScale.applyS t0 < st.baseXScale.applyS t1 :=
    TimeScale.applyS_lt _ _ _ hdom hr ht
  obtain ⟨h0, h1⟩ := setBrush_xScale st _ _ (ne_of_lt hnx) hfull
  rw [min_eq_left (le_of_lt hnx)] at h0
  rw [max_eq_right (le_of_lt hnx)] at h1
  have hdne : st.baseXScale.d1 - st.baseXScale.d0 ≠ 0 := sub_ne_zero.mpr hdom.ne'
  have hrne : st.baseXScale.r1 - st.baseXScale.r0 ≠ 0 := sub_ne_zero.mpr hr.ne'
  exact ⟨by rw [h0, TimeScale.invert_applyS _ _ hdne hrne],
         by rw [h1, TimeScale.invert_applyS _ _ hdne hrne]⟩

/-- C3: Resize preserves the visible time domain.  The captured domain
`[d0, d1]` (non-degenerate), re-derived through the new base scale and
pushed via the deferred `setBrush`, yields a zoomed scale whose domain is
exactly `[d0, d1]`, while both canvases take the new container pixel
dimensions. -/
theorem resize_preserves_domain (st : ChartState) (newW newH : ℚ)
    (hdom : st.baseXScale.d0 < st.baseXScale.d1)
    (hv : st.xScale.d0 < st.xScale.d1)
    (hfull : 0 < newW - marginLeft - marginRight) :
    (observeHostResize st newW newH).xScale.d0 = st.xScale.d0 ∧
    (observeHostResize st newW newH).xScale.d1 = st.xScale.d1 ∧
    (observeHostResize st newW newH).chartCanvasWidth = newW ∧
    (observeHostResize st newW newH).chartCanvasHeight = max 0 (newH - dzHeight - 16 - 8) ∧
    (observeHostResize st newW newH).dzCanvasWidth = newW ∧
    (observeHostResize st newW newH).dzCanvasHeight = dzHeight := by
  have hd2 : (resizedState st newW newH).baseXScale.d0
      < (resizedState st newW newH).baseXScale.d1 := hdom
  have hfull2 : 0 < (resizedState st newW newH).width - marginLeft - marginRight := hfull
  obtain ⟨h0, h1⟩ :=
    setBrush_applyS_roundtrip (resizedState st newW newH) st.xScale.d0 st.xScale.d1 hd2 hfull2 hv
  obtain ⟨hc1, hc2, hc3, hc4⟩ := setBrush_canvas (resizedState st newW newH)
    ((resizedState st newW newH).baseXScale.applyS st.xScale.d0)
    ((resizedState st newW newH).baseXScale.applyS st.xScale.d1)
  exact ⟨h0, h1, hc1, hc2, hc3, hc4⟩

/-- Witness for `resize_preserves_domain`: a concrete state resized from
928 to 400 pixels keeps its visible domain `[0, 100]` and takes the new
canvas width. -/
theorem resize_preserves_domain_witness :
    (observeHostResize
        ⟨[⟨0, 10⟩, ⟨100, 20⟩], 928, 564, 928, 500, 928, 40, zoomIdentity, 32, 920⟩
        400 300).xScale.d0 =
      (⟨[⟨0, 10⟩, ⟨100, 20⟩], 928, 564, 928, 500, 928, 40, zoomIdentity, 32, 920⟩ :
        ChartState).xScale.d0 ∧
    (observeHostResize
        ⟨[⟨0, 10⟩, ⟨100, 20⟩], 928, 564, 928, 500, 928, 40, zoomIdentity, 32, 920⟩
        400 300).chartCanvasWidth = 400 := by
  have h := resize_preserves_domain
    ⟨[⟨0, 10⟩, ⟨100, 20⟩], 928, 564, 928, 500, 928, 40, zoomIdentity, 32, 920⟩
    400 300 (by norm_num [ChartState.baseXScale, extent, extentFold])
    (by norm_num [ChartState.xScale, ChartState.baseXScale, ZoomTransform.rescaleX,
      ZoomTransform.invertX, TimeScale.invert, extent, extentFold, zoomIdentity,
      marginLeft, marginRight])
    (by norm_num [marginLeft, marginRight])
  exact ⟨h.1, h.2.2.1⟩

/-! ### Extent-fold lemmas (d3.extent) -/

theorem extentFold_cons (f : DataPoint → ℚ) (a : DataPoint) (ds : List DataPoint)
    (acc : ℚ × ℚ) :
    extentFold f (a :: ds) acc = extentFold f ds (min acc.1 (f a), max acc.2 (f a)) := rfl

theorem extentFold_le_init (f : DataPoint → ℚ) (l : List DataPoint) :
    ∀ acc : ℚ × ℚ, (extentFold f l acc).1 ≤ acc.1 ∧ acc.2 ≤ (extentFold f l acc).2 := by
  induction l with
  | nil => exact fun acc => ⟨le_refl _, le_refl _⟩
  | cons d ds ih =>
    intro acc
    have h := ih (min acc.1 (f d), max acc.2 (f d))
    exact ⟨le_trans h.1 (min_le_left _ _), le_trans (le_max_left _ _) h.2⟩

theorem extentFold_le_mem (f : DataPoint → ℚ) (l : List DataPoint) :
    ∀ acc : ℚ × ℚ, ∀ d ∈ l,
      (extentFold f l acc).1 ≤ f d ∧ f d ≤ (extentFold f l acc).2 := by
  induction l with
  | nil => intro acc d hd; cases hd
  | cons a ds ih =>
    intro acc d hd
    rcases List.mem_cons.mp hd with h | h
    · subst h
      have h1 := extentFold_le_init f ds (min acc.1 (f d), max acc.2 (f d))
      exact ⟨le_trans h1.1 (min_le_right _ _), le_trans (le_max_right _ _) h1.2⟩
    · exact ih (min acc.1 (f a), max acc.2 (f a)) d h

theorem extentFold_mem (f : DataPoint → ℚ) (l : List DataPoint) :
    ∀ acc : ℚ × ℚ,
      ((extentFold f l acc).1 = acc.1 ∨ (extentFold f l acc).1 ∈ l.map f) ∧
      ((extentFold f l acc).2 = acc.2 ∨ (extentFold f l acc).2 ∈ l.map f) := by
  induction l with
  | nil => exact fun acc => ⟨Or.inl rfl, Or.inl rfl⟩
  | cons a ds ih =>
    intro acc
    rw [extentFold_cons]
    have h := ih (min acc.1 (f a), max acc.2 (f a))
    constructor
    · rcases h.1 with h1 | h1
      · rcases min_choice acc.1 (f a) with hc | hc
        · exact Or.inl (h1.trans hc)
        · exact Or.inr (by rw [List.map_cons, h1.trans hc]; exact List.mem_cons_self _ _)
      · exact Or.inr (by rw [List.map_cons]; exact List.mem_cons_of_mem _ h1)
    · rcases h.2 with h1 | h1
      · rcases max_choice acc.2 (f a) with hc | hc
        · exact Or.inl (h1.trans hc)
        · exact Or.inr (by rw [List.map_cons, h1.trans hc]; exact List.mem_cons_self _ _)
      · exact Or.inr (by rw [List.map_cons]; exact List.mem_cons_of_mem _ h1)

theorem extentFold_const (f : DataPoint → ℚ) (l : List DataPoint) (m : ℚ)
    (h : ∀ d ∈ l, f d = m) : extentFold f l (m, m) = (m, m) := by
  induction l with
  | nil => rfl
  | cons a ds ih =>
    have ha : f a = m := h a (List.mem_cons_self _ _)
    show extentFold f ds (min m (f a), max m (f a)) = (m, m)
    rw [ha, min_self, max_self]
    exact ih fun d hd => h d (List.mem_cons_of_mem _ hd)

/-- C5: Visible value-extent totalization.  Empty slice gives `[0, 1]`;
a non-empty all-equal slice with common value `m` gives `[m-1, m+1]`
(in particular a single point of value 50 gives `[49, 51]`); a slice with
minimum `mn` strictly below maximum `mx` gives `[mn, mx]`. -/
theorem visible_extent_totalization (l : List DataPoint) (m mn mx : ℚ) :
    visibleExtentY [] = (0, 1) ∧
    (l ≠ [] → (∀ d ∈ l, d.value = m) → visibleExtentY l = (m - 1, m + 1)) ∧
    ((∃ d ∈ l, d.value = mn) → (∃ d ∈ l, d.value = mx) →
      (∀ d ∈ l, mn ≤ d.value ∧ d.value ≤ mx) → mn < mx →
      visibleExtentY l = (mn, mx)) := by
  refine ⟨rfl, ?_, ?_⟩
  · intro hne hall
    match l with
    | [] => exact absurd rfl hne
    | d :: ds =>
      have hd : d.value = m := hall d (List.mem_cons_self _ _)
      have hfold : extentFold DataPoint.value ds (d.value, d.value) = (m, m) := by
        rw [hd]
        exact extentFold_const _ _ _ fun e he => hall e (List.mem_cons_of_mem _ he)
      simp [visibleExtentY, extent, hfold]
  · intro hmn hmx hbound hlt
    match l with
    | [] =>
      obtain ⟨d, hd, _⟩ := hmn
      cases hd
    | d :: ds =>
      have hfold : extentFold DataPoint.value ds (d.value, d.value) = (mn, mx) := by
        set r := extentFold DataPoint.value ds (d.value, d.value) with hr
        have hle : ∀ e ∈ d :: ds, r.1 ≤ e.value ∧ e.value ≤ r.2 := by
          intro e he
          rcases List.mem_cons.mp he with h | h
          · subst h
            have := extentFold_le_init DataPoint.value ds (e.value, e.value)
            exact this
          · exact extentFold_le_mem DataPoint.value ds (d.value, d.value) e h
        have hmem := extentFold_mem DataPoint.value ds (d.value, d.value)
        have hm1 : r.1 ∈ (d :: ds).map DataPoint.value := by
          rcases hmem.1 with h | h
          · rw [List.map_cons, h]; exact List.mem_cons_self _ _
          · rw [List.map_cons]; exact List.mem_cons_of_mem _ h
        have hm2 : r.2 ∈ (d :: ds).map DataPoint.value := by
          rcases hmem.2 with h | h
          · rw [List.map_cons, h]; exact List.mem_cons_self _ _
          · rw [List.map_cons]; exact List.mem_cons_of_mem _ h
        obtain ⟨dmn, hdmn, hdmnv⟩ := hmn
        obtain ⟨dmx, hdmx, hdmxv⟩ := hmx
        have h1 : r.1 = mn := by
          apply le_antisymm
          · rw [← hdmnv]; exact (hle dmn hdmn).1
          · obtain ⟨e, he, hev⟩ := List.mem_map.mp hm1
            rw [← hev]; exact (hbound e he).1
        have h2 : r.2 = mx := by
          apply le_antisymm
          · obtain ⟨e, he, hev⟩ := List.mem_map.mp hm2
            rw [← hev]; exact (hbound e he).2
          · rw [← hdmxv]; exact (hle dmx hdmx).2
        rw [← h1, ← h2]
      simp only [visibleExtentY, extent, hfold]
      rw [if_neg (ne_of_lt hlt)]

/-- Witness for `visible_extent_totalization`: the single-point dataset of
value 50 widens to `[49, 51]`, and a two-point slice with values 1 and 3
yields `[1, 3]`. -/
theorem visible_extent_totalization_witness :
    visibleExtentY [⟨0, 50⟩] = (50 - 1, 50 + 1) ∧
    visibleExtentY [⟨0, 1⟩, ⟨1, 3⟩] = (1, 3) :=
  ⟨(visible_extent_totalization [⟨0, 50⟩] 50 0 1).2.1 (by simp)
     (by intro d hd; fin_cases hd; rfl),
   (visible_extent_totalization [⟨0, 1⟩, ⟨1, 3⟩] 0 1 3).2.2
     ⟨⟨0, 1⟩, List.mem_cons_self _ _, rfl⟩ ⟨⟨1, 3⟩, by simp, rfl⟩
     (by intro d hd; fin_cases hd <;> constructor <;> norm_num) (by norm_num)⟩

/-- C6: Edge-crossing swap.  For a resize drag (left or right handle), the
published selection after `onMove` always satisfies `bx0 ≤ bx1`; the edge
named by the updated drag mode equals the clamped pointer position (the
grabbed edge keeps tracking the pointer); and when the updated edge
crosses the other one, the active resize role is swapped within the same
update. -/
theorem edge_crossing_swap (st : ChartState) (ds : DragState) (cx : ℚ)
    (hm : ds.mode = Mode.l ∨ ds.mode = Mode.r) :
    (onMove st ds cx).1.bx0 ≤ (onMove st ds cx).1.bx1 ∧
    ((onMove st ds cx).2.mode = Mode.l →
      (onMove st ds cx).1.bx0 = brushClamp marginLeft (st.width - marginRight) (cx - ds.grab)) ∧
    ((onMove st ds cx).2.mode = Mode.r →
      (onMove st ds cx).1.bx1 = brushClamp marginLeft (st.width - marginRight) (cx - ds.grab)) ∧
    (ds.mode = Mode.l →
      st.bx1 < brushClamp marginLeft (st.width - marginRight) (cx - ds.grab) →
      (onMove st ds cx).2.mode = Mode.r) ∧
    (ds.mode = Mode.r →
      brushClamp marginLeft (st.width - marginRight) (cx - ds.grab) < st.bx0 →
      (onMove st ds cx).2.mode = Mode.l) := by
  rcases hm with hm | hm
  · simp only [onMove, hm]
    split_ifs with hgt <;> dsimp only at hgt ⊢
    · refine ⟨?_, ?_, ?_, ?_, ?_⟩
      · rw [setBrush_bx0, setBrush_bx1]; exact le_of_lt hgt
      · intro h; exact absurd h (by decide)
      · intro _; rw [setBrush_bx1]
      · intro _ _; rfl
      · intro h _; exact absurd h (by decide)
    · refine ⟨?_, ?_, ?_, ?_, ?_⟩
      · rw [setBrush_bx0, setBrush_bx1]; exact not_lt.mp hgt
      · intro _; rw [setBrush_bx0]
      · intro h; exact absurd (hm.symm.trans h) (by decide)
      · intro _ hcl; exact absurd hcl hgt
      · intro h _; exact absurd h (by decide)
  · simp only [onMove, hm]
    split_ifs with hgt <;> dsimp only at hgt ⊢
    · refine ⟨?_, ?_, ?_, ?_, ?_⟩
      · rw [setBrush_bx0, setBrush_bx1]; exact le_of_lt hgt
      · intro _; rw [setBrush_bx0]
      · intro h; exact absurd h (by decide)
      · intro h _; exact absurd h (by decide)
      · intro _ _; rfl
    · refine ⟨?_, ?_, ?_, ?_, ?_⟩
      · rw [setBrush_bx0, setBrush_bx1]; exact not_lt.mp hgt
      · intro h; exact absurd (hm.symm.trans h) (by decide)
      · intro _; rw [setBrush_bx1]
      · intro h _; exact absurd h (by decide)
      · intro _ hcl; exact absurd hcl hgt

/-- Witness for `edge_crossing_swap`: dragging the left handle to pointer
position 300 past the right edge at 200 publishes an ordered selection and
swaps the active role to the right handle. -/
theorem edge_crossing_swap_witness :
    (onMove ⟨[⟨0, 10⟩, ⟨100, 20⟩], 928, 564, 928, 500, 928, 40, zoomIdentity, 100, 200⟩
        ⟨Mode.l, 0, 0⟩ 300).1.bx0 ≤
      (onMove ⟨[⟨0, 10⟩, ⟨100, 20⟩], 928, 564, 928, 500, 928, 40, zoomIdentity, 100, 200⟩
        ⟨Mode.l, 0, 0⟩ 300).1.bx1 ∧
    (onMove ⟨[⟨0, 10⟩, ⟨100, 20⟩], 928, 564, 928, 500, 928, 40, zoomIdentity, 100, 200⟩
        ⟨Mode.l, 0, 0⟩ 300).2.mode = Mode.r := by
  have h := edge_crossing_swap
    ⟨[⟨0, 10⟩, ⟨100, 20⟩], 928, 564, 928, 500, 928, 40, zoomIdentity, 100, 200⟩
    ⟨Mode.l, 0, 0⟩ 300 (Or.inl rfl)
  exact ⟨h.1, h.2.2.2.1 rfl
    (by norm_num [brushClamp, marginLeft, marginRight, min_def, max_def])⟩

/-- C7: Move-mode clamping.  While moving the whole selection with a
captured width between 0 and the overview plot width, every `onMove`
update publishes a selection inside `[marginLeft, width - marginRight]`
whose width equals the captured width. -/
theorem move_mode_clamping (st : ChartState) (ds : DragState) (cx : ℚ)
    (hm : ds.mode = Mode.move) (h0 : 0 ≤ ds.dragWidth)
    (h1 : ds.dragWidth ≤ st.width - marginRight - marginLeft) :
    marginLeft ≤ (onMove st ds cx).1.bx0 ∧
    (onMove st ds cx).1.bx0 ≤ (onMove st ds cx).1.bx1 ∧
    (onMove st ds cx).1.bx1 ≤ st.width - marginRight ∧
    (onMove st ds cx).1.bx1 - (onMove st ds cx).1.bx0 = ds.dragWidth := by
  simp only [onMove, hm]
  split_ifs <;> dsimp only at * <;> simp only [setBrush_bx0, setBrush_bx1] <;>
    refine ⟨?_, ?_, ?_, ?_⟩ <;> linarith

/-- Witness for `move_mode_clamping`: moving a width-100 selection to
pointer position 0 clamps it to `[32, 132]`. -/
theorem move_mode_clamping_witness :
    marginLeft ≤ (onMove ⟨[⟨0, 10⟩, ⟨100, 20⟩], 928, 564, 928, 500, 928, 40,
        zoomIdentity, 100, 200⟩ ⟨Mode.move, 0, 100⟩ 0).1.bx0 ∧
    (onMove ⟨[⟨0, 10⟩, ⟨100, 20⟩], 928, 564, 928, 500, 928, 40,
        zoomIdentity, 100, 200⟩ ⟨Mode.move, 0, 100⟩ 0).1.bx1 -
      (onMove ⟨[⟨0, 10⟩, ⟨100, 20⟩], 928, 564, 928, 500, 928, 40,
        zoomIdentity, 100, 200⟩ ⟨Mode.move, 0, 100⟩ 0).1.bx0 = 100 := by
  have h := move_mode_clamping
    ⟨[⟨0, 10⟩, ⟨100, 20⟩], 928, 564, 928, 500, 928, 40, zoomIdentity, 100, 200⟩
    ⟨Mode.move, 0, 100⟩ 0 rfl (by norm_num)
    (by norm_num [marginLeft, marginRight])
  exact ⟨h.1, h.2.2.2⟩

/-- C8 counterexample: at `chartHeight = 79` the code produces
`min(max(2, round((79-8-32)/40)), 5) = 2` ticks, but
`⌊79 / 40⌋ = 1` (and `⌊(79-8-32) / 40⌋ = 0`), so the tick count exceeds
`floor(plotHeight / 40)` under either reading of "plot height". -/
theorem yticks_floor_bound_counterexample :
    ¬ (((yTicksValues 79 0 1).length : ℤ) ≤ ⌊(79 : ℚ) / 40⌋) := by
  have hf : ⌊(79 : ℚ) / 40⌋ = 1 := by
    rw [Int.floor_eq_iff]
    norm_num
  have hl : (yTicksValues 79 0 1).length = 2 := by
    have hr : jsRound (((79 : ℚ) - marginTop - marginBottom) / 40) = 1 := by
      unfold jsRound
      rw [Int.floor_eq_iff]
      norm_num [marginTop, marginBottom]
    simp [yTicksValues, hr]
  rw [hf, hl]
  norm_num

/-- C8 amended: the value-tick sequence has between 2 and 5 entries, never
more than `max(2, round((chartHeight - marginTop - marginBottom) / 40))`
entries, and is evenly spaced from `minY` to `maxY`: entry `i` is
`minY + i * (maxY - minY) / (count - 1)`, so the first entry is `minY` and
the last is `maxY`. -/
theorem yticks_evenly_spaced (H minY maxY : ℚ) :
    2 ≤ (yTicksValues H minY maxY).length ∧
    (yTicksValues H minY maxY).length ≤ 5 ∧
    ((yTicksValues H minY maxY).length : ℤ)
      ≤ max 2 (jsRound ((H - marginTop - marginBottom) / 40)) ∧
    (yTicksValues H minY maxY).getD 0 0 = minY ∧
    (yTicksValues H minY maxY).getD ((yTicksValues H minY maxY).length - 1) 0 = maxY ∧
    ∀ i, i < (yTicksValues H minY maxY).length →
      (yTicksValues H minY maxY).getD i 0
        = minY + (i : ℚ) * ((maxY - minY) / (((yTicksValues H minY maxY).length : ℚ) - 1)) := by
  simp only [yTicksValues, List.length_map, List.length_range]
  set tc : ℤ := min (max 2 (jsRound ((H - marginTop - marginBottom) / 40))) 5 with htc
  have h2 : 2 ≤ tc := le_min (le_max_left _ _) (by norm_num)
  have h5 : tc ≤ 5 := min_le_right _ _
  have hn2 : 2 ≤ tc.toNat := by omega
  have hcast : ((tc.toNat : ℚ)) = (tc : ℚ) := by
    have h := Int.toNat_of_nonneg (show (0 : ℤ) ≤ tc by omega)
    exact_mod_cast congrArg (fun z : ℤ => (z : ℚ)) h
  have htc2 : (2 : ℚ) ≤ (tc : ℚ) := by exact_mod_cast h2
  have hdne : ((tc : ℚ) - 1) ≠ 0 := by
    intro h
    have : (tc : ℚ) = 1 := by linarith
    linarith
  have hup : ∀ i, i < tc.toNat →
      ((List.range tc.toNat).map
        (fun i : ℕ => minY + (i : ℚ) * ((maxY - minY) / ((tc : ℚ) - 1)))).getD i 0
        = minY + (i : ℚ) * ((maxY - minY) / ((tc : ℚ) - 1)) := by
    intro i hi
    have hi' : i < ((List.range tc.toNat).map
        (fun i : ℕ => minY + (i : ℚ) * ((maxY - minY) / ((tc : ℚ) - 1)))).length := by
      simpa using hi
    rw [List.getD_eq_getElem _ _ hi', List.getElem_map, List.getElem_range]
  refine ⟨hn2, by omega, ?_, ?_, ?_, ?_⟩
  · have : (tc.toNat : ℤ) = tc := Int.toNat_of_nonneg (by omega)
    rw [this]
    exact min_le_left _ _
  · rw [hup 0 (by omega)]
    norm_num
  · rw [hup (tc.toNat - 1) (by omega)]
    have hsub : ((tc.toNat - 1 : ℕ) : ℚ) = (tc : ℚ) - 1 := by
      rw [Nat.cast_sub (by omega)]
      rw [hcast]
      norm_num
    rw [hsub]
    field_simp
  · intro i hi
    rw [hup i hi, hcast]

/-- Witness for `yticks_evenly_spaced`: at `chartHeight = 140` over the
domain `[0, 1]` the first tick is 0 and tick 1 follows the even spacing. -/
theorem yticks_evenly_spaced_witness :
    (yTicksValues 140 0 1).getD 0 0 = 0 ∧
    (yTicksValues 140 0 1).getD 1 0
      = 0 + (1 : ℚ) * ((1 - 0) / (((yTicksValues 140 0 1).length : ℚ) - 1)) := by
  have h := yticks_evenly_spaced 140 0 1
  have hlen : (yTicksValues 140 0 1).length = 3 := by
    have hr : jsRound (((140 : ℚ) - marginTop - marginBottom) / 40) = 3 := by
      unfold jsRound
      rw [Int.floor_eq_iff]
      norm_num [marginTop, marginBottom]
    simp [yTicksValues, hr]
  exact ⟨h.2.2.2.1, h.2.2.2.2.2 1 (by rw [hlen]; omega)⟩

/-- C10: Variant equivalence of the derivation pipeline.  When the
responsive component's width is 928 and its chart height is 500 (the fixed
variant's constants), both variants compute the same visible slice, the
same visible value extent, and the same value-tick sequence for every
dataset and transform. -/
theorem variant_pipeline_equivalence (data : List DataPoint) (t : ZoomTransform)
    (st : ChartState) (hw : st.width = 928) (hh : st.chartHeight = 500)
    (hd : st.data = data) (ht : st.transform = t) :
    st.visibleData = LineChartFixed.visibleData data t ∧
    st.visibleExtentY = LineChartFixed.visibleExtentY data t ∧
    st.yTicksValues = LineChartFixed.yTicksValues data t := by
  have hvd : st.visibleData = LineChartFixed.visibleData data t := by
    simp only [ChartState.visibleData, visibleDataCore, LineChartFixed.visibleData,
      ChartState.xScale, ChartState.baseXScale, LineChartFixed.xScale,
      LineChartFixed.baseXScale, LineChartFixed.width, hw, hd, ht]
    norm_num [marginLeft, marginRight]
  have hve : st.visibleExtentY = LineChartFixed.visibleExtentY data t := by
    show visibleExtentY st.visibleData = _
    rw [hvd]
    rfl
  refine ⟨hvd, hve, ?_⟩
  show yTicksValues st.chartHeight st.visibleExtentY.1 st.visibleExtentY.2 = _
  rw [hh, hve]
  show yTicksValues 500 _ _ = _
  simp only [yTicksValues, LineChartFixed.yTicksValues, LineChartFixed.height]
  norm_num [marginTop, marginBottom]

/-- Witness for `variant_pipeline_equivalence` at a concrete state whose
host height 564 yields chart height 500. -/
theorem variant_pipeline_equivalence_witness :
    (⟨[⟨0, 10⟩, ⟨100, 20⟩], 928, 564, 928, 500, 928, 40, zoomIdentity, 32, 920⟩ :
        ChartState).visibleData
      = LineChartFixed.visibleData [⟨0, 10⟩, ⟨100, 20⟩] zoomIdentity ∧
    (⟨[⟨0, 10⟩, ⟨100, 20⟩], 928, 564, 928, 500, 928, 40, zoomIdentity, 32, 920⟩ :
        ChartState).yTicksValues
      = LineChartFixed.yTicksValues [⟨0, 10⟩, ⟨100, 20⟩] zoomIdentity := by
  have h := variant_pipeline_equivalence [⟨0, 10⟩, ⟨100, 20⟩] zoomIdentity
    ⟨[⟨0, 10⟩, ⟨100, 20⟩], 928, 564, 928, 500, 928, 40, zoomIdentity, 32, 920⟩
    rfl (by norm_num [ChartState.chartHeight, dzHeight]) rfl rfl
  exact ⟨h.1, h.2.2⟩

/-! ### Bisection lemmas (d3.bisector .left) -/

theorem sorted_date_le (l : List DataPoint) (hs : DatesSorted l) (i j : ℕ)
    (hij : i ≤ j) (hj : j < l.length) :
    (l.getD i default).date ≤ (l.getD j default).date := by
  rcases Nat.eq_or_lt_of_le hij with h | h
  · subst h; exact le_refl _
  · have hi : i < l.length := lt_trans h hj
    rw [List.getD_eq_getElem _ _ hi, List.getD_eq_getElem _ _ hj]
    exact List.pairwise_iff_getElem.mp hs i j hi hj h

/-- Characterization of the binary search on a sorted list: the result `r`
lies in `[lo, hi]`, every index of `[lo, r)` holds a date below `x`, and
every index of `[r, hi)` holds a date at or above `x`. -/
theorem bisectDateLeft_spec (a : List DataPoint) (x : ℚ) (hs : DatesSorted a) :
    ∀ n lo hi, hi - lo ≤ n → lo ≤ hi → hi ≤ a.length →
      lo ≤ bisectDateLeft a x lo hi ∧ bisectDateLeft a x lo hi ≤ hi ∧
      (∀ i, lo ≤ i → i < bisectDateLeft a x lo hi → (a.getD i default).date < x) ∧
      (∀ i, bisectDateLeft a x lo hi ≤ i → i < hi → x ≤ (a.getD i default).date) := by
  intro n
  induction n with
  | zero =>
    intro lo hi hn hlh hha
    have heq : hi = lo := by omega
    subst heq
    rw [bisectDateLeft, dif_neg (lt_irrefl _)]
    refine ⟨le_refl _, le_refl _, ?_, ?_⟩ <;>
      (intro i h1 h2; exact absurd h2 (by omega))
  | succ n ih =>
    intro lo hi hn hlh hha
    rw [bisectDateLeft]
    by_cases hlt : lo < hi
    · rw [dif_pos hlt]
      by_cases hcmp : (a.getD ((lo + hi) / 2) default).date < x
      · rw [if_pos hcmp]
        obtain ⟨h1, h2, h3, h4⟩ := ih ((lo + hi) / 2 + 1) hi (by omega) (by omega) hha
        refine ⟨by omega, h2, ?_, h4⟩
        intro i hi1 hi2
        by_cases him : i ≤ (lo + hi) / 2
        · exact lt_of_le_of_lt (sorted_date_le a hs i ((lo + hi) / 2) him (by omega)) hcmp
        · exact h3 i (by omega) hi2
      · rw [if_neg hcmp]
        obtain ⟨h1, h2, h3, h4⟩ := ih lo ((lo + hi) / 2) (by omega) (by omega) (by omega)
        refine ⟨h1, by omega, h3, ?_⟩
        intro i hi1 hi2
        by_cases him : i < (lo + hi) / 2
        · exact h4 i hi1 him
        · exact le_trans (not_lt.mp hcmp)
            (sorted_date_le a hs ((lo + hi) / 2) i (by omega) (by omega))
    · rw [dif_neg hlt]
      refine ⟨le_refl _, by omega, ?_, ?_⟩ <;>
      (intro i h1 h2; exact absurd h2 (by omega))

/-- C4: Visible-window bisection correctness.  On a dataset sorted
ascending by date and a window `x0 ≤ x1`, the bisected slice equals the
linear-scan filter under the half-open convention `x0 ≤ date < x1`;
windows wholly outside the dataset's date range yield the empty slice and
windows covering it yield the full dataset. -/
theorem visible_window_bisection (data : List DataPoint) (x0 x1 : ℚ)
    (hs : DatesSorted data) (hx : x0 ≤ x1) :
    visibleDataCore data x0 x1
        = data.filter (fun d => decide (x0 ≤ d.date ∧ d.date < x1)) ∧
    ((∀ d ∈ data, x1 < d.date) → visibleDataCore data x0 x1 = []) ∧
    ((∀ d ∈ data, d.date < x0) → visibleDataCore data x0 x1 = []) ∧
    ((∀ d ∈ data, x0 ≤ d.date ∧ d.date < x1) → visibleDataCore data x0 x1 = data) := by
  have hmain : visibleDataCore data x0 x1
      = data.filter (fun d => decide (x0 ≤ d.date ∧ d.date < x1)) := by
    obtain ⟨h00, h01, h02, h03⟩ :=
      bisectDateLeft_spec data x0 hs data.length 0 data.length (by omega) (by omega) (le_refl _)
    set i0 := bisectDateLeft data x0 0 data.length with hi0
    obtain ⟨h10, h11, h12, h13⟩ :=
      bisectDateLeft_spec data x1 hs data.length i0 data.length (by omega) h01 (le_refl _)
    set i1 := bisectDateLeft data x1 i0 data.length with hi1
    have hslice : visibleDataCore data x0 x1 = (data.drop i0).take (i1 - i0) := rfl
    have hdecomp : data
        = data.take i0 ++ ((data.drop i0).take (i1 - i0) ++ data.drop i1) := by
      conv_lhs => rw [← List.take_append_drop i0 data]
      congr 1
      conv_lhs => rw [← List.take_append_drop (i1 - i0) (data.drop i0)]
      congr 1
      rw [List.drop_drop]
      congr 1
      omega
    have hfilter0 : (data.take i0).filter
        (fun d => decide (x0 ≤ d.date ∧ d.date < x1)) = [] := by
      apply List.filter_eq_nil_iff.mpr
      intro d hd
      obtain ⟨j, hj, rfl⟩ := List.mem_iff_getElem.mp hd
      have hjb : j < i0 ∧ j < data.length := by
        simp only [List.length_take] at hj
        omega
      have hdj := h02 j (by omega) hjb.1
      rw [List.getD_eq_getElem _ _ hjb.2] at hdj
      rw [List.getElem_take]
      simp only [decide_eq_true_eq]
      rintro ⟨hc, -⟩
      exact absurd hc (not_le.mpr hdj)
    have hfilter1 : ((data.drop i0).take (i1 - i0)).filter
        (fun d => decide (x0 ≤ d.date ∧ d.date < x1)) = (data.drop i0).take (i1 - i0) := by
      apply List.filter_eq_self.mpr
      intro d hd
      obtain ⟨j, hj, rfl⟩ := List.mem_iff_getElem.mp hd
      have hjb : j < i1 - i0 ∧ i0 + j < data.length := by
        simp only [List.length_take, List.length_drop] at hj
        omega
      have hd1 := h03 (i0 + j) (by omega) (by omega)
      have hd2 := h12 (i0 + j) (by omega) (by omega)
      rw [List.getD_eq_getElem _ _ (by omega)] at hd1 hd2
      rw [List.getElem_take, List.getElem_drop]
      simp only [decide_eq_true_eq]
      exact ⟨hd1, hd2⟩
    have hfilter2 : (data.drop i1).filter
        (fun d => decide (x0 ≤ d.date ∧ d.date < x1)) = [] := by
      apply List.filter_eq_nil_iff.mpr
      intro d hd
      obtain ⟨j, hj, rfl⟩ := List.mem_iff_getElem.mp hd
      have hjb : i1 + j < data.length := by
        simp only [List.length_drop] at hj
        omega
      have hd2 := h13 (i1 + j) (by omega) hjb
      rw [List.getD_eq_getElem _ _ hjb] at hd2
      rw [List.getElem_drop]
      simp only [decide_eq_true_eq]
      rintro ⟨-, hc⟩
      exact absurd hc (not_lt.mpr hd2)
    rw [hslice]
    conv_rhs => rw [hdecomp]
    rw [List.filter_append, List.filter_append, hfilter0, hfilter1, hfilter2]
    simp
  refine ⟨hmain, ?_, ?_, ?_⟩
  · intro h
    rw [hmain]
    apply List.filter_eq_nil_iff.mpr
    intro d hd
    simp only [decide_eq_true_eq]
    rintro ⟨-, hc⟩
    exact absurd hc (not_lt.mpr (le_of_lt (h d hd)))
  · intro h
    rw [hmain]
    apply List.filter_eq_nil_iff.mpr
    intro d hd
    simp only [decide_eq_true_eq]
    rintro ⟨hc, -⟩
    exact absurd hc (not_le.mpr (h d hd))
  · intro h
    rw [hmain]
    apply List.filter_eq_self.mpr
    intro d hd
    simp only [decide_eq_true_eq]
    exact h d hd

/-- Witness for `visible_window_bisection`: the window `[-5, 50)` over the
two-point dataset selects exactly the first point, matching the filter. -/
theorem visible_window_bisection_witness :
    visibleDataCore [⟨0, 10⟩, ⟨100, 20⟩] (-5) 50
      = List.filter (fun d => decide ((-5 : ℚ) ≤ d.date ∧ d.date < 50))
          [⟨0, 10⟩, ⟨100, 20⟩] := by
  have hs : DatesSorted [⟨0, 10⟩, ⟨100, 20⟩] := by
    refine List.Pairwise.cons ?_ (List.pairwise_singleton _ _)
    intro q hq
    fin_cases hq
    norm_num
  exact (visible_window_bisection [⟨0, 10⟩, ⟨100, 20⟩] (-5) 50 hs (by norm_num)).1

end LineChart
